import Mathlib

/-!
# Verification of the gidrive chunked object store

Shallow embedding of the shard-allocation and chunk-transfer engine of the
gidrive repository (`src/constants.rs`, `src/utils.rs`, `src/models.rs`,
`src/metadata.rs`, `src/api.rs`).  Pure data paths are translated directly;
external transport calls (git clone/push, `gh` repo management) are modelled
by their success/failure outcomes, which the surrounding code threads through
`Result` values.
-/

namespace Gidrive

/-! ## Constants (`src/constants.rs`) -/

def CHUNK_SIZE : Nat := 2 * 1024 * 1024

def MAX_SIZE_PER_REPO : Nat := 20 * 1024 * 1024

def VERSION : String := "0.1.1"

/-- File contents as a list of bytes (values of type `u8` in the source). -/
abbrev Bytes := List Nat

/-! ## Version gate (`src/utils.rs`, `versions_are_compatible`) -/

/-- Rust `str::split('.')` on the character list of a string: every occurrence
of `'.'` separates two (possibly empty) components; the empty string yields
one empty component. -/
def splitDots : List Char → List (List Char)
  | [] => [[]]
  | c :: rest =>
    if c = '.' then [] :: splitDots rest
    else
      match splitDots rest with
      | [] => [[c]]
      | g :: gs => (c :: g) :: gs

/-- Rust `str::parse::<u32>()`: an optional leading `'+'`, then one or more
ASCII digits, rejecting the empty string, any other character, and values
of `2^32` or more (overflow). -/
def parse_u32 (s : List Char) : Option Nat :=
  let digits :=
    match s with
    | '+' :: rest => rest
    | _ => s
  if digits = [] then none
  else if digits.all Char.isDigit then
    let n := digits.foldl (fun acc c => acc * 10 + (c.toNat - 48)) 0
    if n < 4294967296 then some n else none
  else none

/-- `src/utils.rs` lines 61-89: both strings must have exactly three
dot-separated components; the major and minor components of both must parse
as `u32`; equal majors are required, and when the current major is `0` the
minors must also be equal.  The patch components are only pattern-matched
for presence, never compared. -/
def versions_are_compatible (found current : String) : Bool :=
  match splitDots found.data with
  | [f0, f1, _] =>
    match splitDots current.data with
    | [c0, c1, _] =>
      match parse_u32 f0, parse_u32 f1, parse_u32 c0, parse_u32 c1 with
      | some found_maj, some found_min, some curr_maj, some curr_min =>
        if found_maj ≠ curr_maj then false
        else if curr_maj = 0 ∧ found_min ≠ curr_min then false
        else true
      | _, _, _, _ => false
    | _ => false
  | _ => false

/-! ## Data model (`src/models.rs`) -/

/-- `src/models.rs` `ChunkInfo`: one persisted chunk record of a file
manifest. -/
structure ChunkInfo where
  repo : String
  path : String
  size : Nat
  index : Nat
deriving DecidableEq

/-- `src/models.rs` `FileMetadata`: the per-file manifest. -/
structure FileMetadata where
  checksum : String
  size : Nat
  chunks : List ChunkInfo
deriving DecidableEq

/-- `src/models.rs` `RepoInfo`: one shard's bookkeeping entry. -/
structure RepoInfo where
  name : String
  current_size : Nat
deriving DecidableEq

/-- `src/models.rs` `ReposMetadata`: the global shard directory.  The Rust
field `repos : BTreeMap<String, RepoInfo>` is embedded as its iteration
sequence: an association list whose keys are strictly ascending in the
`String` order (the `BTreeMap` representation invariant, stated separately
as `ReposSorted` where a theorem needs it). -/
structure ReposMetadata where
  next_id : Nat
  repos : List (String × RepoInfo)
deriving DecidableEq

/-- The `BTreeMap` representation invariant: keys strictly ascending. -/
def ReposSorted (l : List (String × RepoInfo)) : Prop :=
  List.Pairwise (fun a b => a.1 < b.1) l

instance (l : List (String × RepoInfo)) : Decidable (ReposSorted l) := by
  unfold ReposSorted; infer_instance

/-! ## Shard allocator (`src/metadata.rs`, `find_or_create_repo_for_chunk`) -/

/-- Zero-padding of Rust's `format!("{:04}", n)`. -/
def pad4 (n : Nat) : String :=
  let s := toString n
  if s.length < 4 then String.mk (List.replicate (4 - s.length) '0' ++ s.data) else s

/-- `format!("storage-{:04}", repo_id)` from `src/metadata.rs` line 65. -/
def repoNameOf (repo_id : Nat) : String :=
  "storage-" ++ pad4 repo_id

/-- The `for (_, repo) in repos_meta.repos.iter_mut()` scan of
`src/metadata.rs` lines 56-61: walk the map entries in iteration order; at
the first entry with `current_size + chunk_size <= MAX_SIZE_PER_REPO`,
increment its `current_size` in place and return `repo.name.clone()`. -/
def scanRepos (chunk_size : Nat) :
    List (String × RepoInfo) → Option (String × List (String × RepoInfo))
  | [] => none
  | (k, r) :: rest =>
    if r.current_size + chunk_size ≤ MAX_SIZE_PER_REPO then
      some (r.name, (k, { r with current_size := r.current_size + chunk_size }) :: rest)
    else
      match scanRepos chunk_size rest with
      | some (n, rest') => some (n, (k, r) :: rest')
      | none => none

/-- `BTreeMap::insert`: place the binding at its key's position in the
ascending key order, replacing an existing binding for the same key. -/
def btreeInsert (k : String) (v : RepoInfo) :
    List (String × RepoInfo) → List (String × RepoInfo)
  | [] => [(k, v)]
  | (k', v') :: rest =>
    if k < k' then (k, v) :: (k', v') :: rest
    else if k = k' then (k, v) :: rest
    else (k', v') :: btreeInsert k v rest

/-- `src/metadata.rs` lines 52-77.  The external transport calls
(`repo_exists` / `create_repo`) are summarised by `createOk`: `true` when the
shard already exists or its creation succeeds, `false` when `create_repo`
fails, in which case the `?` propagates the error after `next_id` has already
been incremented.  The Rust function mutates `repos_meta` in place and
returns `Result<String>`; the embedding returns both. -/
def find_or_create_repo_for_chunk (createOk : Bool) (repos_meta : ReposMetadata)
    (chunk_size : Nat) : Except String String × ReposMetadata :=
  match scanRepos chunk_size repos_meta.repos with
  | some (name, repos') => (Except.ok name, { repos_meta with repos := repos' })
  | none =>
    let repo_id := repos_meta.next_id
    let repo_name := repoNameOf repo_id
    if createOk then
      (Except.ok repo_name,
        { next_id := repo_id + 1,
          repos := btreeInsert repo_name { name := repo_name, current_size := chunk_size }
            repos_meta.repos })
    else
      (Except.error "Failed to create new repo", { repos_meta with next_id := repo_id + 1 })

/-- The sequential planning pass over a list of chunk sizes: each call feeds
the directory mutated by the previous one (transport creation succeeding),
collecting the per-chunk results. -/
def allocRun (repos_meta : ReposMetadata) :
    List Nat → List (Except String String) × ReposMetadata
  | [] => ([], repos_meta)
  | s :: rest =>
    let step := find_or_create_repo_for_chunk true repos_meta s
    let next := allocRun step.2 rest
    (step.1 :: next.1, next.2)

/-- The directory states observed after each allocation call of a sequence. -/
def allocStates (repos_meta : ReposMetadata) : List Nat → List ReposMetadata
  | [] => []
  | s :: rest =>
    let m' := (find_or_create_repo_for_chunk true repos_meta s).2
    m' :: allocStates m' rest

/-- Plain association-list lookup, the map view of the `repos` field. -/
def lookupKey (k : String) : List (String × RepoInfo) → Option RepoInfo
  | [] => none
  | (k', v) :: rest => if k = k' then some v else lookupKey k rest

/-! ## Chunk planning (`src/api.rs` lines 50-64)

The `while remaining > 0` loop is embedded with an explicit fuel argument;
the loop body removes `min remaining C ≥ 1` bytes per iteration whenever
`C ≥ 1`, so fuel `remaining` is always sufficient (for `C = 0` the source
loop would not terminate; every claim assumes a positive chunk size, and the
source constant `CHUNK_SIZE` is positive). -/

/-- The planning loop restricted to its `(index, chunk_size)` output: each
iteration emits `min remaining C`, decrements `remaining` by it, and
increments `index`. -/
def planLoop (C : Nat) : Nat → Nat → Nat → List (Nat × Nat)
  | 0, _, _ => []
  | fuel + 1, remaining, index =>
    if remaining = 0 then []
    else
      let chunk_size := Nat.min remaining C
      (index, chunk_size) :: planLoop C fuel (remaining - chunk_size) (index + 1)

/-- The chunk descriptors planned for a file of `fileSize` bytes with chunk
size `C`, starting at index `0`. -/
def planChunks (C fileSize : Nat) : List (Nat × Nat) :=
  planLoop C fileSize fileSize 0

/-- The sequential chunk-file creation of `src/api.rs` lines 69-88: the
source file is read strictly in order, each planned chunk taking the next
`chunk_size` bytes. -/
def splitBySizes : List Nat → Bytes → List Bytes
  | [], _ => []
  | s :: rest, bytes => bytes.take s :: splitBySizes rest (bytes.drop s)

/-- Splitting a byte sequence by the upload chunking rule. -/
def chunkContents (C : Nat) (bytes : Bytes) : List Bytes :=
  splitBySizes ((planChunks C bytes.length).map Prod.snd) bytes

/-- The full planning loop of `src/api.rs` lines 50-64, threading the shard
directory through `find_or_create_repo_for_chunk` and recording the
`(index, repo_name, chunk_size)` assignment of each chunk.  The `retry`
wrapper around the allocator re-runs it on a transport failure; with the
transport available (`createOk = true`) the first attempt already succeeds,
and a final failure propagates as the operation's error. -/
def assignLoop (createOk : Bool) :
    Nat → ReposMetadata → Nat → Nat →
      Except String (List (Nat × String × Nat) × ReposMetadata)
  | 0, repos_meta, _, _ => Except.ok ([], repos_meta)
  | fuel + 1, repos_meta, remaining, index =>
    if remaining = 0 then Except.ok ([], repos_meta)
    else
      let chunk_size := Nat.min remaining CHUNK_SIZE
      match find_or_create_repo_for_chunk createOk repos_meta chunk_size with
      | (Except.ok repo_name, repos_meta') =>
        match assignLoop createOk fuel repos_meta' (remaining - chunk_size) (index + 1) with
        | Except.ok (rest, repos_metaF) =>
          Except.ok ((index, repo_name, chunk_size) :: rest, repos_metaF)
        | Except.error e => Except.error e
      | (Except.error e, _) => Except.error e

/-! ## Upload (`src/api.rs` lines 27-145) -/

/-- `format!("{}_{:04}.chunk", checksum, index)` (`src/api.rs` lines 92 and
130). -/
def chunkBlobName (checksum : String) (index : Nat) : String :=
  checksum ++ "_" ++ pad4 index ++ ".chunk"

/-- Environment of one upload call: the version marker stored in the
metadata repository, and the outcome of each per-shard transfer job
(`upload_chunks_to_repo`, one job per distinct assigned shard).  Metadata
clones and pushes are modelled as succeeding: a push loops with backoff
until it succeeds, and a failing metadata clone aborts before any step a
claim talks about. -/
structure UploadEnv where
  storedVersion : String
  jobOutcome : String → Except String Unit

/-- `src/api.rs` `upload`, pure data path, step by step:
checksum and size of the source file; the version gate (the source `panic!`
is embedded as an error result); the sequential planning loop; the chunk
files cut from the source bytes; one transfer job per distinct assigned
shard whose results are collected into `_results` and — exactly as in the
source — never inspected afterwards; finally the manifest built from the
assignments.  Returns the manifest written to the metadata repository and
the shard directory persisted after planning. -/
def upload (hash : Bytes → String) (env : UploadEnv) (repos_meta0 : ReposMetadata)
    (fileBytes : Bytes) : Except String (FileMetadata × ReposMetadata) :=
  let checksum := hash fileBytes
  let file_size := fileBytes.length
  if versions_are_compatible env.storedVersion VERSION then
    match assignLoop true file_size repos_meta0 file_size 0 with
    | Except.ok (assignments, repos_meta) =>
      let _chunkFiles := splitBySizes (assignments.map (fun a => a.2.2)) fileBytes
      let _results : List (Except String Unit) :=
        ((assignments.map (fun a => a.2.1)).dedup).map env.jobOutcome
      let chunks : List ChunkInfo := assignments.map (fun a =>
        { repo := a.2.1, path := chunkBlobName checksum a.1, size := a.2.2, index := a.1 })
      Except.ok ({ checksum := checksum, size := file_size, chunks := chunks }, repos_meta)
    | Except.error e => Except.error e
  else
    Except.error "upload rejected: Incompatible version"

/-! ## Download (`src/api.rs` lines 147-221) -/

/-- Stable insertion by chunk index, `Vec::sort_by_key(|c| c.index)`. -/
def insertByIndex (c : ChunkInfo) : List ChunkInfo → List ChunkInfo
  | [] => [c]
  | d :: rest =>
    if c.index < d.index then c :: d :: rest
    else d :: insertByIndex c rest

/-- `file_meta.chunks.sort_by_key(|c| c.index)` (`src/api.rs` line 168). -/
def sortByIndex (l : List ChunkInfo) : List ChunkInfo :=
  l.foldr insertByIndex []

/-- The concatenation loop of `src/api.rs` lines 193-200: for each global
chunk position in ascending order, open the staged file `chunk_{i}` (absent
when that shard's fetch job failed — the collected job results themselves
are never inspected) and append its bytes to the output file.  Returns the
loop's outcome together with the bytes written to the output file so far. -/
def assembleLoop (fetched : Nat → Option Bytes) :
    List Nat → Bytes → Except String Unit × Bytes
  | [], acc => (Except.ok (), acc)
  | i :: rest, acc =>
    match fetched i with
    | none => (Except.error "Failed to open downloaded chunk", acc)
    | some b => assembleLoop fetched rest (acc ++ b)

/-- The bytes assembled from the staged chunk files in index order. -/
def fetchedConcat (fetched : Nat → Option Bytes) (n : Nat) : Bytes :=
  (List.range n).foldl (fun acc i => acc ++ (fetched i).getD []) []

/-- `src/api.rs` `download`, pure data path from the manifest on: sort the
manifest's chunk records by index; assemble the staged chunk files
(`fetched i` is the content of `chunk_{i}`, `none` when missing) into the
output file in ascending index order; then the size check and the checksum
check, the latter deleting the output file before returning its error.
Returns the operation's outcome together with the final content of the
destination path (`none`: no file remains). -/
def download (hash : Bytes → String) (file_meta : FileMetadata)
    (fetched : Nat → Option Bytes) : Except String Unit × Option Bytes :=
  let sortedChunks := sortByIndex file_meta.chunks
  match assembleLoop fetched (List.range sortedChunks.length) [] with
  | (Except.error e, out) => (Except.error e, some out)
  | (Except.ok _, assembled) =>
    let total_written := assembled.length
    if total_written ≠ file_meta.size then
      (Except.error ("Downloaded size mismatch: " ++ toString total_written ++ " vs " ++
        toString file_meta.size), some assembled)
    else if hash assembled ≠ file_meta.checksum then
      (Except.error ("Checksum mismatch: " ++ hash assembled ++ " vs " ++
        file_meta.checksum), none)
    else
      (Except.ok (), some assembled)

/-! ## Lemmas about the planning loop -/

theorem planLoop_closed (C : Nat) (hC : 0 < C) :
    ∀ fuel r i, r ≤ fuel →
      planLoop C fuel r i =
        (List.range ((r + C - 1) / C)).map (fun k => (i + k, Nat.min C (r - k * C))) := by
  intro fuel
  induction fuel with
  | zero =>
    intro r i hr
    have hr0 : r = 0 := by omega
    subst hr0
    have hdiv : (C - 1) / C = 0 := Nat.div_eq_of_lt (by omega)
    simp [planLoop, hdiv]
  | succ fuel ih =>
    intro r i hr
    by_cases h0 : r = 0
    · subst h0
      have hdiv : (C - 1) / C = 0 := Nat.div_eq_of_lt (by omega)
      simp [planLoop, hdiv]
    · have hminr : Nat.min r C ≤ r := Nat.min_le_left r C
      have hmin1 : 1 ≤ Nat.min r C := Nat.le_min.mpr ⟨by omega, hC⟩
      rw [show planLoop C (fuel + 1) r i =
            (i, Nat.min r C) :: planLoop C fuel (r - Nat.min r C) (i + 1) by
          simp [planLoop, h0]]
      rw [ih (r - Nat.min r C) (i + 1) (by omega)]
      rcases le_or_lt r C with hrC | hCr
      · -- the final, short chunk: min r C = r, no further iterations
        have hmin : Nat.min r C = r := Nat.min_eq_left hrC
        have hlen1 : (r + C - 1) / C = 1 := Nat.div_eq_of_lt_le (by omega) (by omega)
        have hlen0 : (r - r + C - 1) / C = 0 := Nat.div_eq_of_lt (by omega)
        rw [hmin, hlen0, hlen1]
        have hz : Nat.min C (r - 0 * C) = r := by
          have h5 : r - 0 * C = r := by omega
          rw [h5]
          exact Nat.min_eq_right hrC
        have hr1 : List.range 1 = [0] := by decide
        simp only [List.range_zero, List.map_nil, hr1, List.map_cons, hz, Nat.add_zero]
      · -- a full chunk of C bytes followed by the rest of the plan
        have hmin : Nat.min r C = C := Nat.min_eq_right (Nat.le_of_lt hCr)
        have heq1 : r - C + C - 1 = r - 1 := by omega
        have heq2 : r + C - 1 = r - 1 + C := by omega
        have hlen : (r - 1 + C) / C = (r - 1) / C + 1 := Nat.add_div_right _ hC
        rw [hmin, heq1, heq2, hlen]
        simp only [List.range_succ_eq_map, List.map_cons, List.map_map]
        have hhead : ((i + 0 : Nat), Nat.min C (r - 0 * C)) = (i, C) := by
          have hz : Nat.min C (r - 0 * C) = C := by
            have : r - 0 * C = r := by omega
            rw [this]
            exact Nat.min_eq_left (Nat.le_of_lt hCr)
          rw [hz, Nat.add_zero]
        rw [hhead]
        have htail :
            (fun k => (i + 1 + k, Nat.min C (r - C - k * C))) =
              ((fun k => (i + k, Nat.min C (r - k * C))) ∘ Nat.succ) := by
          funext k
          have h1 : i + 1 + k = i + Nat.succ k := by omega
          have h2 : r - C - k * C = r - Nat.succ k * C := by
            have hm : Nat.succ k * C = k * C + C := Nat.succ_mul k C
            omega
          simp [Function.comp, h1, h2]
        rw [htail]

theorem planLoop_sum (C : Nat) (hC : 0 < C) :
    ∀ fuel r i, r ≤ fuel → ((planLoop C fuel r i).map Prod.snd).sum = r := by
  intro fuel
  induction fuel with
  | zero =>
    intro r i hr
    have hr0 : r = 0 := by omega
    subst hr0
    simp [planLoop]
  | succ fuel ih =>
    intro r i hr
    by_cases h0 : r = 0
    · subst h0; simp [planLoop]
    · have hminr : Nat.min r C ≤ r := Nat.min_le_left r C
      have hmin1 : 1 ≤ Nat.min r C := Nat.le_min.mpr ⟨by omega, hC⟩
      rw [show planLoop C (fuel + 1) r i =
            (i, Nat.min r C) :: planLoop C fuel (r - Nat.min r C) (i + 1) by
          simp [planLoop, h0]]
      rw [List.map_cons, List.sum_cons, ih (r - Nat.min r C) (i + 1) (by omega)]
      omega

theorem getLast?_map_range {α : Type} (f : Nat → α) (n : Nat) (hn : 0 < n) :
    ((List.range n).map f).getLast? = some (f (n - 1)) := by
  obtain ⟨m, rfl⟩ : ∃ m, n = m + 1 := ⟨n - 1, by omega⟩
  rw [List.range_succ, List.map_append, List.map_singleton, List.getLast?_concat]
  simp

/-- C5: for every file size `S ≥ 0` and chunk size `C > 0`, the planning
loop of `upload` produces exactly `⌈S/C⌉` chunks (zero when `S = 0`), with
indices incrementing from `0`, each chunk's size `min C remaining` (the
remaining bytes at step `k` being `S - k*C`), the sizes summing to `S`, and
the last chunk of size `S % C` when `C` does not divide `S` and of size `C`
when it does. -/
theorem chunk_planning_correct (C S : Nat) (hC : 0 < C) :
    planChunks C S = (List.range ((S + C - 1) / C)).map (fun k => (k, Nat.min C (S - k * C)))
    ∧ (planChunks C S).length = (S + C - 1) / C
    ∧ (S = 0 → planChunks C S = [])
    ∧ (planChunks C S).map Prod.fst = List.range ((S + C - 1) / C)
    ∧ ((planChunks C S).map Prod.snd).sum = S
    ∧ (0 < S → S % C ≠ 0 → (planChunks C S).getLast? = some ((S + C - 1) / C - 1, S % C))
    ∧ (0 < S → S % C = 0 → (planChunks C S).getLast? = some ((S + C - 1) / C - 1, C)) := by
  have hclosed : planChunks C S =
      (List.range ((S + C - 1) / C)).map (fun k => (k, Nat.min C (S - k * C))) := by
    unfold planChunks
    rw [planLoop_closed C hC S S 0 (Nat.le_refl S)]
    simp
  have hlen : (planChunks C S).length = (S + C - 1) / C := by
    rw [hclosed, List.length_map, List.length_range]
  have hlenpos : 0 < S → 0 < (S + C - 1) / C := by
    intro hS
    have : C ≤ S + C - 1 := by omega
    exact Nat.one_le_div_iff hC |>.mpr this
  refine ⟨hclosed, hlen, ?_, ?_, ?_, ?_, ?_⟩
  · intro h0
    subst h0
    simp [planChunks, planLoop]
  · rw [hclosed, List.map_map]
    have : (Prod.fst ∘ fun k => ((k : Nat), Nat.min C (S - k * C))) = id := by
      funext k; simp
    rw [this, List.map_id]
  · unfold planChunks
    exact planLoop_sum C hC S S 0 (Nat.le_refl S)
  · intro hS hmod
    have hq : C * (S / C) + S % C = S := Nat.div_add_mod S C
    have hlt : S % C < C := Nat.mod_lt _ hC
    have hlenq : (S + C - 1) / C = S / C + 1 := by
      have h1 : S + C - 1 = C * (S / C) + (S % C + C - 1) := by omega
      rw [h1, Nat.mul_add_div hC]
      have h2 : (S % C + C - 1) / C = 1 := Nat.div_eq_of_lt_le (by omega) (by omega)
      omega
    rw [hclosed, getLast?_map_range _ _ (hlenpos hS), hlenq]
    simp only [Nat.add_sub_cancel]
    have hcm : S / C * C = C * (S / C) := Nat.mul_comm _ _
    have h4 : S - S / C * C = S % C := by omega
    have h5 : Nat.min C (S % C) = S % C := Nat.min_eq_right (Nat.le_of_lt hlt)
    rw [h4, h5]
  · intro hS hmod
    have hq : C * (S / C) + S % C = S := Nat.div_add_mod S C
    obtain ⟨q', hq'⟩ : ∃ q', S / C = q' + 1 := by
      refine ⟨S / C - 1, ?_⟩
      have hqpos : 0 < S / C := by
        rcases Nat.eq_zero_or_pos (S / C) with h | h
        · rw [h, Nat.mul_zero] at hq; omega
        · exact h
      omega
    have hmul : C * (S / C) = C * q' + C := by rw [hq', Nat.mul_succ]
    have hS' : S = C * q' + C := by omega
    have hlenq : (S + C - 1) / C = q' + 1 := by
      have h1 : S + C - 1 = C * q' + (C + C - 1) := by omega
      rw [h1, Nat.mul_add_div hC]
      have h2 : (C + C - 1) / C = 1 := Nat.div_eq_of_lt_le (by omega) (by omega)
      omega
    rw [hclosed, getLast?_map_range _ _ (hlenpos hS), hlenq]
    simp only [Nat.add_sub_cancel]
    have hcm : q' * C = C * q' := Nat.mul_comm _ _
    have h4 : S - q' * C = C := by omega
    have h5 : Nat.min C C = C := Nat.min_self C
    rw [h4, h5]

/-! ## Lemmas about chunk contents and reassembly -/

theorem length_splitBySizes : ∀ (sizes : List Nat) (bytes : Bytes),
    (splitBySizes sizes bytes).length = sizes.length := by
  intro sizes
  induction sizes with
  | nil => intro bytes; simp [splitBySizes]
  | cons s rest ih => intro bytes; simp [splitBySizes, ih]

theorem join_splitBySizes : ∀ (sizes : List Nat) (bytes : Bytes),
    sizes.sum = bytes.length → (splitBySizes sizes bytes).flatten = bytes := by
  intro sizes
  induction sizes with
  | nil =>
    intro bytes h
    simp only [List.sum_nil] at h
    have : bytes = [] := List.eq_nil_of_length_eq_zero h.symm
    simp [splitBySizes, this]
  | cons s rest ih =>
    intro bytes h
    simp only [List.sum_cons] at h
    have hrest : rest.sum = (bytes.drop s).length := by
      rw [List.length_drop]
      omega
    simp only [splitBySizes, List.flatten_cons]
    rw [ih (bytes.drop s) hrest, List.take_append_drop]

theorem assembleLoop_all_some (fetched : Nat → Option Bytes) :
    ∀ (is : List Nat) (acc : Bytes), (∀ i ∈ is, (fetched i).isSome) →
      assembleLoop fetched is acc =
        (Except.ok (), is.foldl (fun acc i => acc ++ (fetched i).getD []) acc) := by
  intro is
  induction is with
  | nil => intro acc _; simp [assembleLoop]
  | cons i rest ih =>
    intro acc hall
    have hi : (fetched i).isSome := hall i (List.mem_cons_self i rest)
    obtain ⟨b, hb⟩ := Option.isSome_iff_exists.mp hi
    simp only [assembleLoop, hb, List.foldl_cons, Option.getD_some]
    exact ih (acc ++ b) (fun j hj => hall j (List.mem_cons_of_mem i hj))

theorem assembleLoop_range_all_some (fetched : Nat → Option Bytes) (n : Nat)
    (h : ∀ i < n, (fetched i).isSome) :
    assembleLoop fetched (List.range n) [] = (Except.ok (), fetchedConcat fetched n) :=
  assembleLoop_all_some fetched (List.range n) []
    (fun i hi => h i (List.mem_range.mp hi))

theorem assembleLoop_get (l : List Bytes) :
    ∀ (s : Nat) (fetched : Nat → Option Bytes),
      (∀ k, k < l.length → fetched (s + k) = l.get? k) →
      ∀ acc, assembleLoop fetched (List.range' s l.length) acc =
        (Except.ok (), acc ++ l.flatten) := by
  induction l with
  | nil =>
    intro s fetched _ acc
    simp [assembleLoop, List.range']
  | cons b bs ih =>
    intro s fetched h acc
    have hs : fetched s = some b := by
      have := h 0 (by simp)
      simpa using this
    have hrest : ∀ k, k < bs.length → fetched (s + 1 + k) = bs.get? k := by
      intro k hk
      have := h (k + 1) (by simp; omega)
      rw [show s + (k + 1) = s + 1 + k by omega] at this
      simpa using this
    simp only [List.length_cons, List.range', assembleLoop, hs, List.flatten_cons]
    rw [ih (s + 1) fetched hrest (acc ++ b), List.append_assoc]

theorem sortByIndex_of_ascending :
    ∀ l : List ChunkInfo, List.Pairwise (fun a b => a.index < b.index) l →
      sortByIndex l = l := by
  intro l
  induction l with
  | nil => intro _; rfl
  | cons c rest ih =>
    intro h
    rcases List.pairwise_cons.mp h with ⟨hhead, htail⟩
    have hrest : sortByIndex rest = rest := ih htail
    show insertByIndex c (sortByIndex rest) = c :: rest
    rw [hrest]
    cases rest with
    | nil => rfl
    | cons d rest' =>
      have hcd : c.index < d.index := hhead d (List.mem_cons_self d rest')
      simp [insertByIndex, hcd]

/-! ## Lemmas about the shard allocator -/

theorem scanRepos_eq_none (chunk_size : Nat) :
    ∀ l : List (String × RepoInfo),
      (∀ e ∈ l, ¬(e.2.current_size + chunk_size ≤ MAX_SIZE_PER_REPO)) →
      scanRepos chunk_size l = none := by
  intro l
  induction l with
  | nil => intro _; rfl
  | cons e rest ih =>
    intro h
    obtain ⟨k, r⟩ := e
    have hk : ¬(r.current_size + chunk_size ≤ MAX_SIZE_PER_REPO) :=
      h (k, r) (List.mem_cons_self _ _)
    simp only [scanRepos, if_neg hk]
    rw [ih (fun e he => h e (List.mem_cons_of_mem _ he))]

theorem scanRepos_first (chunk_size : Nat) :
    ∀ (pre : List (String × RepoInfo)) (k : String) (r : RepoInfo)
      (post : List (String × RepoInfo)),
      (∀ e ∈ pre, ¬(e.2.current_size + chunk_size ≤ MAX_SIZE_PER_REPO)) →
      r.current_size + chunk_size ≤ MAX_SIZE_PER_REPO →
      scanRepos chunk_size (pre ++ (k, r) :: post) =
        some (r.name,
          pre ++ (k, { r with current_size := r.current_size + chunk_size }) :: post) := by
  intro pre
  induction pre with
  | nil =>
    intro k r post _ hr
    simp [scanRepos, if_pos hr]
  | cons e pre' ih =>
    intro k r post hpre hr
    obtain ⟨k', r'⟩ := e
    have hk' : ¬(r'.current_size + chunk_size ≤ MAX_SIZE_PER_REPO) :=
      hpre (k', r') (List.mem_cons_self _ _)
    simp only [List.cons_append, scanRepos, if_neg hk', List.append_eq]
    rw [ih k r post (fun e he => hpre e (List.mem_cons_of_mem _ he)) hr]

theorem scanRepos_capacity (chunk_size : Nat) :
    ∀ (l l' : List (String × RepoInfo)) (n : String),
      (∀ e ∈ l, e.2.current_size ≤ MAX_SIZE_PER_REPO) →
      scanRepos chunk_size l = some (n, l') →
      ∀ e ∈ l', e.2.current_size ≤ MAX_SIZE_PER_REPO := by
  intro l
  induction l with
  | nil => intro l' n _ h; simp [scanRepos] at h
  | cons e rest ih =>
    intro l' n hinv hscan
    obtain ⟨k, r⟩ := e
    by_cases hfit : r.current_size + chunk_size ≤ MAX_SIZE_PER_REPO
    · simp only [scanRepos, if_pos hfit] at hscan
      obtain ⟨-, rfl⟩ := Option.some.injEq _ _ ▸ (Prod.mk.injEq _ _ _ _ ▸ Option.some.inj hscan)
      intro e he
      rcases List.mem_cons.mp he with rfl | he'
      · exact hfit
      · exact hinv e (List.mem_cons_of_mem _ he')
    · simp only [scanRepos, if_neg hfit] at hscan
      cases hrec : scanRepos chunk_size rest with
      | none => rw [hrec] at hscan; cases hscan
      | some p =>
        obtain ⟨n', rest'⟩ := p
        rw [hrec] at hscan
        obtain ⟨rfl, rfl⟩ : n' = n ∧ (k, r) :: rest' = l' := by
          have := Option.some.inj hscan
          exact ⟨congrArg Prod.fst this, congrArg Prod.snd this⟩
        intro e he
        rcases List.mem_cons.mp he with rfl | he'
        · exact hinv (k, r) (List.mem_cons_self _ _)
        · exact ih rest' n' (fun e he => hinv e (List.mem_cons_of_mem _ he)) hrec e he'

theorem btreeInsert_mem (k : String) (v : RepoInfo) :
    ∀ l e, e ∈ btreeInsert k v l → e = (k, v) ∨ e ∈ l := by
  intro l
  induction l with
  | nil =>
    intro e he
    simp only [btreeInsert, List.mem_singleton] at he
    exact Or.inl he
  | cons p rest ih =>
    intro e he
    obtain ⟨k', v'⟩ := p
    by_cases h1 : k < k'
    · simp only [btreeInsert, if_pos h1] at he
      rcases List.mem_cons.mp he with rfl | he'
      · exact Or.inl rfl
      · exact Or.inr he'
    · by_cases h2 : k = k'
      · simp only [btreeInsert, if_neg h1, if_pos h2] at he
        rcases List.mem_cons.mp he with rfl | he'
        · exact Or.inl rfl
        · exact Or.inr (List.mem_cons_of_mem _ he')
      · simp only [btreeInsert, if_neg h1, if_neg h2] at he
        rcases List.mem_cons.mp he with rfl | he'
        · exact Or.inr (List.mem_cons_self _ _)
        · rcases ih e he' with h | h
          · exact Or.inl h
          · exact Or.inr (List.mem_cons_of_mem _ h)

theorem alloc_preserves_capacity (createOk : Bool) (m : ReposMetadata) (chunk_size : Nat)
    (hinv : ∀ e ∈ m.repos, e.2.current_size ≤ MAX_SIZE_PER_REPO)
    (hcs : chunk_size ≤ MAX_SIZE_PER_REPO) :
    ∀ e ∈ (find_or_create_repo_for_chunk createOk m chunk_size).2.repos,
      e.2.current_size ≤ MAX_SIZE_PER_REPO := by
  unfold find_or_create_repo_for_chunk
  cases hscan : scanRepos chunk_size m.repos with
  | some p =>
    obtain ⟨n, repos'⟩ := p
    intro e he
    exact scanRepos_capacity chunk_size m.repos repos' n hinv hscan e he
  | none =>
    cases createOk with
    | true =>
      intro e he
      simp only at he
      rcases btreeInsert_mem _ _ _ e he with rfl | hmem
      · exact hcs
      · exact hinv e hmem
    | false =>
      intro e he
      exact hinv e he

/-! ## Lemmas about sorted association lists (determinism of allocation) -/

/-- The string order is the lexicographic order on the character data (the
`BTreeMap` key order); this direction lets concrete comparisons be decided
on the data. -/
theorem string_lt_of_data {a b : String} (h : a.data < b.data) : a < b :=
  String.lt_iff_toList_lt.mpr h

theorem lookupKey_eq_none_of_ne :
    ∀ (l : List (String × RepoInfo)) (k : String),
      (∀ e ∈ l, k ≠ e.1) → lookupKey k l = none := by
  intro l
  induction l with
  | nil => intro k _; rfl
  | cons p rest ih =>
    intro k h
    obtain ⟨k', v'⟩ := p
    have hne : k ≠ k' := h (k', v') (List.mem_cons_self _ _)
    simp only [lookupKey, if_neg hne]
    exact ih k (fun e he => h e (List.mem_cons_of_mem _ he))

theorem lookupKey_some_mem :
    ∀ (l : List (String × RepoInfo)) (k : String) (v : RepoInfo),
      lookupKey k l = some v → ∃ e ∈ l, e.1 = k := by
  intro l
  induction l with
  | nil => intro k v h; cases h
  | cons p rest ih =>
    intro k v h
    obtain ⟨k', v'⟩ := p
    by_cases hk : k = k'
    · exact ⟨(k', v'), List.mem_cons_self _ _, hk.symm⟩
    · simp only [lookupKey, if_neg hk] at h
      obtain ⟨e, he, hek⟩ := ih k v h
      exact ⟨e, List.mem_cons_of_mem _ he, hek⟩

theorem sorted_assoc_ext :
    ∀ l1 l2 : List (String × RepoInfo), ReposSorted l1 → ReposSorted l2 →
      (∀ k, lookupKey k l1 = lookupKey k l2) → l1 = l2 := by
  intro l1
  induction l1 with
  | nil =>
    intro l2 _ _ hlook
    cases l2 with
    | nil => rfl
    | cons p t2 =>
      obtain ⟨k2, v2⟩ := p
      exfalso
      have := hlook k2
      simp [lookupKey] at this
  | cons p t1 ih =>
    intro l2 h1 h2 hlook
    obtain ⟨k1, v1⟩ := p
    cases l2 with
    | nil =>
      exfalso
      have := hlook k1
      simp [lookupKey] at this
    | cons q t2 =>
      obtain ⟨k2, v2⟩ := q
      rcases List.pairwise_cons.mp h1 with ⟨hh1, ht1⟩
      rcases List.pairwise_cons.mp h2 with ⟨hh2, ht2⟩
      have hkeys : k1 = k2 := by
        by_contra hne
        have ha := hlook k1
        have hb := hlook k2
        simp only [lookupKey, if_pos rfl, if_neg hne, if_neg (Ne.symm hne)] at ha hb
        obtain ⟨e1, he1, hek1⟩ := lookupKey_some_mem t2 k1 v1 ha.symm
        obtain ⟨e2, he2, hek2⟩ := lookupKey_some_mem t1 k2 v2 hb
        have hlt1 : k2 < k1 := hek1 ▸ hh2 e1 he1
        have hlt2 : k1 < k2 := hek2 ▸ hh1 e2 he2
        exact absurd hlt1 (lt_asymm hlt2)
      subst hkeys
      have hv : v1 = v2 := by
        have := hlook k1
        simpa [lookupKey] using this
      subst hv
      have htails : ∀ k, lookupKey k t1 = lookupKey k t2 := by
        intro k
        by_cases hk : k = k1
        · subst hk
          rw [lookupKey_eq_none_of_ne t1 k (fun e he => ne_of_lt (hh1 e he)),
            lookupKey_eq_none_of_ne t2 k (fun e he => ne_of_lt (hh2 e he))]
        · have := hlook k
          simpa [lookupKey, if_neg hk] using this
      rw [ih t2 ht1 ht2 htails]

/-! ## Lemmas about the upload pipeline -/

theorem find_or_create_true_ok (m : ReposMetadata) (chunk_size : Nat) :
    ∃ name m', find_or_create_repo_for_chunk true m chunk_size = (Except.ok name, m') := by
  unfold find_or_create_repo_for_chunk
  cases hscan : scanRepos chunk_size m.repos with
  | some p =>
    obtain ⟨n, l⟩ := p
    exact ⟨n, _, rfl⟩
  | none => exact ⟨_, _, rfl⟩

theorem assignLoop_true_ok :
    ∀ (fuel : Nat) (m : ReposMetadata) (r i : Nat),
      ∃ asg mF, assignLoop true fuel m r i = Except.ok (asg, mF) ∧
        asg.map (fun a => (a.1, a.2.2)) = planLoop CHUNK_SIZE fuel r i := by
  intro fuel
  induction fuel with
  | zero => intro m r i; exact ⟨[], m, rfl, rfl⟩
  | succ fuel ih =>
    intro m r i
    by_cases h0 : r = 0
    · exact ⟨[], m, by simp [assignLoop, h0], by simp [planLoop, h0]⟩
    · obtain ⟨name, m', hfc⟩ := find_or_create_true_ok m (Nat.min r CHUNK_SIZE)
      obtain ⟨asg, mF, hrec, hmap⟩ := ih m' (r - Nat.min r CHUNK_SIZE) (i + 1)
      refine ⟨(i, name, Nat.min r CHUNK_SIZE) :: asg, mF, ?_, ?_⟩
      · simp only [assignLoop, if_neg h0, hfc, hrec]
      · simp only [List.map_cons, planLoop, if_neg h0, hmap]

theorem upload_ok_inv (hash : Bytes → String) (env : UploadEnv) (m0 : ReposMetadata)
    (bytes : Bytes) (fm : FileMetadata) (m' : ReposMetadata)
    (h : upload hash env m0 bytes = Except.ok (fm, m')) :
    versions_are_compatible env.storedVersion VERSION = true ∧
    ∃ asg, assignLoop true bytes.length m0 bytes.length 0 = Except.ok (asg, m') ∧
      fm = { checksum := hash bytes, size := bytes.length,
             chunks := asg.map (fun a =>
               { repo := a.2.1, path := chunkBlobName (hash bytes) a.1,
                 size := a.2.2, index := a.1 }) } := by
  by_cases hv : versions_are_compatible env.storedVersion VERSION
  · simp only [upload, if_pos hv] at h
    obtain ⟨asg, mF, hA, hmap⟩ := assignLoop_true_ok bytes.length m0 bytes.length 0
    rw [hA] at h
    simp only [Except.ok.injEq, Prod.mk.injEq] at h
    obtain ⟨hfm, hm⟩ := h
    exact ⟨hv, asg, hm ▸ hA, hfm.symm⟩
  · simp only [upload, if_neg hv] at h
    cases h

/-- The `(index, size)` view of a completed upload's assignments is the
chunk plan for the file's length. -/
theorem upload_ok_plan (hash : Bytes → String) (env : UploadEnv) (m0 : ReposMetadata)
    (bytes : Bytes) (fm : FileMetadata) (m' : ReposMetadata)
    (h : upload hash env m0 bytes = Except.ok (fm, m')) :
    fm.chunks.map (fun c => (c.index, c.size)) = planChunks CHUNK_SIZE bytes.length ∧
    fm.checksum = hash bytes ∧ fm.size = bytes.length := by
  obtain ⟨-, asg, hA, hfm⟩ := upload_ok_inv hash env m0 bytes fm m' h
  obtain ⟨asg', mF, hA', hmap⟩ := assignLoop_true_ok bytes.length m0 bytes.length 0
  rw [hA'] at hA
  have hasg : asg' = asg := by
    have := Except.ok.inj hA
    exact congrArg Prod.fst this
  subst hasg
  refine ⟨?_, by rw [hfm], by rw [hfm]⟩
  rw [hfm]
  simp only [List.map_map]
  calc asg'.map ((fun c : ChunkInfo => (c.index, c.size)) ∘ fun a =>
        { repo := a.2.1, path := chunkBlobName (hash bytes) a.1,
          size := a.2.2, index := a.1 })
      = asg'.map (fun a => (a.1, a.2.2)) := by
        apply List.map_congr_left
        intro a _
        rfl
    _ = planChunks CHUNK_SIZE bytes.length := hmap

/-! ## Claims -/

/-- C1 (code bug): the upload call's result does not depend on the per-shard
transfer job outcomes at all — the source collects them into `_results` and
never inspects them — and a concrete upload whose only shard job fails still
returns success, contradicting the claim that a job failure makes the
overall upload fail. -/
theorem upload_ignores_job_failures :
    (∀ (hash : Bytes → String) (v : String) (j j' : String → Except String Unit)
       (m0 : ReposMetadata) (bytes : Bytes),
       upload hash { storedVersion := v, jobOutcome := j } m0 bytes =
         upload hash { storedVersion := v, jobOutcome := j' } m0 bytes)
    ∧ upload (fun _ => "h")
        { storedVersion := "0.1.1", jobOutcome := fun _ => Except.error "Failed to clone repo" }
        { next_id := 1, repos := [] } [1, 2, 3] =
      Except.ok
        ({ checksum := "h", size := 3,
           chunks := [{ repo := "storage-0001", path := "h_0000.chunk", size := 3, index := 0 }] },
         { next_id := 2,
           repos := [("storage-0001", { name := "storage-0001", current_size := 3 })] }) :=
  ⟨fun _ _ _ _ _ _ => rfl, rfl⟩

/-- C5: for every file size and positive chunk size, the planning loop
produces exactly `⌈S/C⌉` chunks (none for an empty file) with indices
`0, 1, …`, sizes `min C remaining` summing to `S`, and last chunk `S % C`
(or `C` when `C` divides `S`).  Stated and proved as
`chunk_planning_correct` above; this witness applies it at `C = 3`,
`S = 7`. -/
theorem chunk_planning_correct_witness :
    planChunks 3 7 =
      (List.range ((7 + 3 - 1) / 3)).map (fun k => (k, Nat.min 3 (7 - k * 3))) :=
  (chunk_planning_correct 3 7 (by decide)).1

/-- C7: `versions_are_compatible` is true exactly for equal majors with
equal minors additionally required when the major is `0`; the patch
component is never compared (changing only it never changes the result);
and the four concrete examples behave as specified. -/
theorem version_compat_rule :
    (∀ (f c : String) (f0 f1 f2 c0 c1 c2 : List Char) (x y x' y' : Nat),
        splitDots f.data = [f0, f1, f2] → splitDots c.data = [c0, c1, c2] →
        parse_u32 f0 = some x → parse_u32 f1 = some y →
        parse_u32 c0 = some x' → parse_u32 c1 = some y' →
        (versions_are_compatible f c = true ↔ (x = x' ∧ (x' = 0 → y = y'))))
    ∧ (∀ (f f' c : String) (a b p p' : List Char),
        splitDots f.data = [a, b, p] → splitDots f'.data = [a, b, p'] →
        versions_are_compatible f c = versions_are_compatible f' c)
    ∧ (∀ (f c c' : String) (a b p p' : List Char),
        splitDots c.data = [a, b, p] → splitDots c'.data = [a, b, p'] →
        versions_are_compatible f c = versions_are_compatible f c')
    ∧ versions_are_compatible "0.1.1" "0.1.1" = true
    ∧ versions_are_compatible "1.2.3" "1.9.9" = true
    ∧ versions_are_compatible "0.1.1" "0.2.0" = false
    ∧ versions_are_compatible "0.1.1" "1.1.1" = false := by
  refine ⟨?_, ?_, ?_, by decide, by decide, by decide, by decide⟩
  · intro f c f0 f1 f2 c0 c1 c2 x y x' y' hsf hsc hp0 hp1 hp2 hp3
    simp only [versions_are_compatible, hsf, hsc, hp0, hp1, hp2, hp3]
    by_cases hxx : x = x'
    · by_cases hx0 : x' = 0
      · by_cases hyy : y = y' <;> simp [hxx, hx0, hyy]
      · simp [hxx, hx0]
    · simp [hxx]
  · intro f f' c a b p p' hf hf'
    simp only [versions_are_compatible, hf, hf']
  · intro f c c' a b p p' hc hc'
    simp only [versions_are_compatible, hc, hc']

/-- Witness for `version_compat_rule`: its compatibility rule applied to the
concrete pair `("1.2.3", "1.9.9")`. -/
theorem version_compat_rule_witness :
    versions_are_compatible "1.2.3" "1.9.9" = true ↔ (1 = 1 ∧ (1 = 0 → 2 = 9)) :=
  version_compat_rule.1 "1.2.3" "1.9.9" ['1'] ['2'] ['3'] ['1'] ['9'] ['9'] 1 2 1 9
    (by decide) (by decide) (by decide) (by decide) (by decide) (by decide)

/-- C10: whenever either input does not split into exactly three
dot-separated components, or a major or minor component of either input
fails to parse as a `u32`, `versions_are_compatible` returns `false`.  The
hypothesis states exactly that no well-formed parse of both majors and
minors exists. -/
theorem malformed_version_rejected (f c : String)
    (h : ∀ f0 f1 f2 c0 c1 c2 : List Char,
        splitDots f.data = [f0, f1, f2] → splitDots c.data = [c0, c1, c2] →
        parse_u32 f0 = none ∨ parse_u32 f1 = none ∨
        parse_u32 c0 = none ∨ parse_u32 c1 = none) :
    versions_are_compatible f c = false := by
  rcases hsf : splitDots f.data with _ | ⟨f0, _ | ⟨f1, _ | ⟨f2, _ | ft⟩⟩⟩
  · simp [versions_are_compatible, hsf]
  · simp [versions_are_compatible, hsf]
  · simp [versions_are_compatible, hsf]
  case cons.cons.cons.nil =>
    rcases hsc : splitDots c.data with _ | ⟨c0, _ | ⟨c1, _ | ⟨c2, _ | ct⟩⟩⟩
    · simp [versions_are_compatible, hsf, hsc]
    · simp [versions_are_compatible, hsf, hsc]
    · simp [versions_are_compatible, hsf, hsc]
    case cons.cons.cons.nil =>
      have hd := h f0 f1 f2 c0 c1 c2 hsf hsc
      cases hp0 : parse_u32 f0 with
      | none => simp [versions_are_compatible, hsf, hsc, hp0]
      | some x0 =>
        cases hp1 : parse_u32 f1 with
        | none => simp [versions_are_compatible, hsf, hsc, hp0, hp1]
        | some x1 =>
          cases hp2 : parse_u32 c0 with
          | none => simp [versions_are_compatible, hsf, hsc, hp0, hp1, hp2]
          | some x2 =>
            cases hp3 : parse_u32 c1 with
            | none => simp [versions_are_compatible, hsf, hsc, hp0, hp1, hp2, hp3]
            | some x3 => simp [hp0, hp1, hp2, hp3] at hd
    case cons.cons.cons.cons =>
      simp [versions_are_compatible, hsf, hsc]
  case cons.cons.cons.cons =>
    simp [versions_are_compatible, hsf]

/-- Witness for `malformed_version_rejected`: the stored marker `"x.1.1"`
has a major component that does not parse, so it is rejected against
`"0.1.1"`. -/
theorem malformed_version_rejected_witness :
    versions_are_compatible "x.1.1" "0.1.1" = false :=
  malformed_version_rejected "x.1.1" "0.1.1" (by
    intro f0 f1 f2 c0 c1 c2 h1 _
    rw [(by decide : splitDots "x.1.1".data = [['x'], ['1'], ['1']])] at h1
    obtain ⟨h0, -, -⟩ := List.cons.inj h1 |>.imp id (fun h => List.cons.inj h)
    exact Or.inl (by rw [← h0]; decide))

/-- C8: every manifest written by a completed upload has chunk indices
forming the contiguous range `0..n` (no gaps or duplicates) and chunk sizes
summing to the manifest's recorded total size. -/
theorem manifest_invariants (hash : Bytes → String) (env : UploadEnv)
    (m0 : ReposMetadata) (bytes : Bytes) (fm : FileMetadata) (m' : ReposMetadata)
    (h : upload hash env m0 bytes = Except.ok (fm, m')) :
    fm.chunks.map ChunkInfo.index = List.range fm.chunks.length ∧
    (fm.chunks.map ChunkInfo.size).sum = fm.size := by
  obtain ⟨hplan, -, hsz⟩ := upload_ok_plan hash env m0 bytes fm m' h
  have hC : 0 < CHUNK_SIZE := by decide
  obtain ⟨-, hlen, -, hfst, hsum, -, -⟩ :=
    chunk_planning_correct CHUNK_SIZE bytes.length hC
  have hidx : fm.chunks.map ChunkInfo.index =
      (planChunks CHUNK_SIZE bytes.length).map Prod.fst := by
    rw [← hplan, List.map_map]
    rfl
  have hsizes : fm.chunks.map ChunkInfo.size =
      (planChunks CHUNK_SIZE bytes.length).map Prod.snd := by
    rw [← hplan, List.map_map]
    rfl
  have hlen2 : fm.chunks.length = (bytes.length + CHUNK_SIZE - 1) / CHUNK_SIZE := by
    have h1 : (fm.chunks.map (fun c => (c.index, c.size))).length =
        (planChunks CHUNK_SIZE bytes.length).length := by rw [hplan]
    rw [List.length_map] at h1
    rw [h1, hlen]
  constructor
  · rw [hidx, hfst, hlen2]
  · rw [hsizes, hsum, hsz]

/-- Witness for `manifest_invariants`: the manifest of a concrete completed
three-byte upload. -/
theorem manifest_invariants_witness :
    (FileMetadata.mk "h" 3
        [ChunkInfo.mk "storage-0001" "h_0000.chunk" 3 0]).chunks.map ChunkInfo.index =
      List.range
        (FileMetadata.mk "h" 3
          [ChunkInfo.mk "storage-0001" "h_0000.chunk" 3 0]).chunks.length ∧
    ((FileMetadata.mk "h" 3
        [ChunkInfo.mk "storage-0001" "h_0000.chunk" 3 0]).chunks.map ChunkInfo.size).sum =
      (FileMetadata.mk "h" 3 [ChunkInfo.mk "storage-0001" "h_0000.chunk" 3 0]).size :=
  manifest_invariants (fun _ => "h")
    { storedVersion := "0.1.1", jobOutcome := fun _ => Except.ok () }
    { next_id := 1, repos := [] } [1, 2, 3] _
    { next_id := 2, repos := [("storage-0001", { name := "storage-0001", current_size := 3 })] }
    (by rfl)

/-- Helper for C3: starting from a directory satisfying the capacity
invariant, a sequence of allocations of chunks each at most
`MAX_SIZE_PER_REPO` keeps every intermediate directory within capacity. -/
theorem allocStates_capacity :
    ∀ (sizes : List Nat) (m0 : ReposMetadata),
      (∀ e ∈ m0.repos, e.2.current_size ≤ MAX_SIZE_PER_REPO) →
      (∀ s ∈ sizes, s ≤ MAX_SIZE_PER_REPO) →
      ∀ m ∈ allocStates m0 sizes, ∀ e ∈ m.repos,
        e.2.current_size ≤ MAX_SIZE_PER_REPO := by
  intro sizes
  induction sizes with
  | nil => intro m0 _ _ m hm; cases hm
  | cons s rest ih =>
    intro m0 hinv hsz m hm
    have hs : s ≤ MAX_SIZE_PER_REPO := hsz s (List.mem_cons_self _ _)
    have hinv' := alloc_preserves_capacity true m0 s hinv hs
    simp only [allocStates] at hm
    rcases List.mem_cons.mp hm with rfl | hm'
    · exact hinv'
    · exact ih (find_or_create_repo_for_chunk true m0 s).2 hinv'
        (fun t ht => hsz t (List.mem_cons_of_mem _ ht)) m hm'

/-- C3 (amended): along any sequence of allocation calls whose chunk sizes
are each at most `MAX_SIZE_PER_REPO`, starting from a directory satisfying
the capacity invariant, no shard's `current_size` ever exceeds
`MAX_SIZE_PER_REPO` after any call.  (An oversized chunk, however, is not
rejected — see the counterexample `oversized_chunk_recorded`.) -/
theorem allocation_capacity_invariant (m0 : ReposMetadata) (sizes : List Nat)
    (hinv : ∀ e ∈ m0.repos, e.2.current_size ≤ MAX_SIZE_PER_REPO)
    (hsz : ∀ s ∈ sizes, s ≤ MAX_SIZE_PER_REPO) :
    ∀ m ∈ allocStates m0 sizes, ∀ e ∈ m.repos,
      e.2.current_size ≤ MAX_SIZE_PER_REPO :=
  allocStates_capacity sizes m0 hinv hsz

/-- Witness for `allocation_capacity_invariant`: two allocations, one of a
full shard's worth, starting from the empty directory; the shard recorded in
the first resulting state is within capacity. -/
theorem allocation_capacity_invariant_witness :
    (("storage-0001", RepoInfo.mk "storage-0001" MAX_SIZE_PER_REPO) :
        String × RepoInfo).2.current_size ≤ MAX_SIZE_PER_REPO :=
  allocation_capacity_invariant { next_id := 1, repos := [] } [MAX_SIZE_PER_REPO, 5]
    (by intro e he; cases he)
    (by intro s hs; rcases List.mem_cons.mp hs with rfl | hs'
        · exact Nat.le_refl _
        · rcases List.mem_cons.mp hs' with rfl | hs''
          · decide
          · cases hs'')
    (ReposMetadata.mk 2 [("storage-0001", RepoInfo.mk "storage-0001" MAX_SIZE_PER_REPO)])
    (by decide)
    ("storage-0001", RepoInfo.mk "storage-0001" MAX_SIZE_PER_REPO)
    (by decide)

/-- C3 counterexample: a chunk of `MAX_SIZE_PER_REPO + 1` bytes is not
rejected with an error: the allocator succeeds and records it in a fresh
shard whose `current_size` exceeds `MAX_SIZE_PER_REPO`. -/
theorem oversized_chunk_recorded :
    find_or_create_repo_for_chunk true { next_id := 1, repos := [] }
        (MAX_SIZE_PER_REPO + 1) =
      (Except.ok "storage-0001",
       { next_id := 2,
         repos := [("storage-0001",
           { name := "storage-0001", current_size := MAX_SIZE_PER_REPO + 1 })] }) ∧
    MAX_SIZE_PER_REPO < MAX_SIZE_PER_REPO + 1 :=
  ⟨rfl, Nat.lt_succ_self _⟩

/-- C4: with the `BTreeMap` key order as the scan order (keys are the shard
names, i.e. the shard ids), the allocator returns the first shard in
ascending shard-id order whose `current_size + chunk_size` fits within
`MAX_SIZE_PER_REPO`, incrementing that shard's `current_size`; the selected
shard's id is minimal among all fitting shards; and when no shard fits it
names a new shard from `next_id`, increments the counter by one, and inserts
a fresh entry whose `current_size` equals the chunk size. -/
theorem allocator_first_fit (m : ReposMetadata) (chunk_size : Nat)
    (hsort : ReposSorted m.repos) :
    (∀ (pre : List (String × RepoInfo)) (k : String) (r : RepoInfo)
       (post : List (String × RepoInfo)),
       m.repos = pre ++ (k, r) :: post →
       (∀ e ∈ pre, ¬(e.2.current_size + chunk_size ≤ MAX_SIZE_PER_REPO)) →
       r.current_size + chunk_size ≤ MAX_SIZE_PER_REPO →
       find_or_create_repo_for_chunk true m chunk_size =
         (Except.ok r.name,
          { m with repos :=
              pre ++ (k, { r with current_size := r.current_size + chunk_size }) :: post })
       ∧ (∀ e ∈ m.repos, e.2.current_size + chunk_size ≤ MAX_SIZE_PER_REPO →
            k = e.1 ∨ k < e.1))
    ∧ ((∀ e ∈ m.repos, ¬(e.2.current_size + chunk_size ≤ MAX_SIZE_PER_REPO)) →
       find_or_create_repo_for_chunk true m chunk_size =
         (Except.ok (repoNameOf m.next_id),
          { next_id := m.next_id + 1,
            repos := btreeInsert (repoNameOf m.next_id)
              { name := repoNameOf m.next_id, current_size := chunk_size } m.repos })) := by
  constructor
  · intro pre k r post hdec hpre hfit
    constructor
    · unfold find_or_create_repo_for_chunk
      rw [show m.repos = pre ++ (k, r) :: post from hdec,
        scanRepos_first chunk_size pre k r post hpre hfit]
    · intro e he hefit
      rw [hdec] at hsort
      rw [hdec] at he
      rcases List.mem_append.mp he with hpe | hpost
      · exact absurd hefit (hpre e hpe)
      · rcases List.mem_cons.mp hpost with rfl | hp
        · exact Or.inl rfl
        · right
          rcases List.pairwise_append.mp hsort with ⟨-, hcons, -⟩
          exact (List.pairwise_cons.mp hcons).1 e hp
  · intro hnone
    unfold find_or_create_repo_for_chunk
    rw [scanRepos_eq_none chunk_size m.repos hnone]
    rfl

/-- Witness for `allocator_first_fit`: the full first shard is skipped and
the second, fitting shard is selected and bumped. -/
theorem allocator_first_fit_witness :
    find_or_create_repo_for_chunk true
      { next_id := 3,
        repos :=
          [("storage-0001",
            { name := "storage-0001", current_size := MAX_SIZE_PER_REPO }),
           ("storage-0002", { name := "storage-0002", current_size := 5 })] } 7 =
      (Except.ok "storage-0002",
       { next_id := 3,
         repos :=
           [("storage-0001",
             { name := "storage-0001", current_size := MAX_SIZE_PER_REPO }),
            ("storage-0002", { name := "storage-0002", current_size := 12 })] }) :=
  ((allocator_first_fit
      { next_id := 3,
        repos :=
          [("storage-0001",
            { name := "storage-0001", current_size := MAX_SIZE_PER_REPO }),
           ("storage-0002", { name := "storage-0002", current_size := 5 })] } 7
      (by
        refine List.Pairwise.cons ?_ (List.Pairwise.cons (by simp) List.Pairwise.nil)
        intro b hb
        rcases List.mem_cons.mp hb with rfl | hb'
        · exact string_lt_of_data (by decide)
        · cases hb')).1
    [("storage-0001", { name := "storage-0001", current_size := MAX_SIZE_PER_REPO })]
    "storage-0002" { name := "storage-0002", current_size := 5 } []
    rfl (by decide) (by decide)).1

/-- C9: the sequential allocation pass is deterministic: two starting
directories that agree as maps (same counter, same key-to-shard bindings,
both well-formed `BTreeMap` representations) produce identical per-chunk
assignments and identical directories after every call, for every sequence
of chunk sizes. -/
theorem allocation_deterministic (m1 m2 : ReposMetadata) (sizes : List Nat)
    (h1 : ReposSorted m1.repos) (h2 : ReposSorted m2.repos)
    (hid : m1.next_id = m2.next_id)
    (hlook : ∀ k, lookupKey k m1.repos = lookupKey k m2.repos) :
    allocRun m1 sizes = allocRun m2 sizes ∧
    allocStates m1 sizes = allocStates m2 sizes := by
  have hrep : m1.repos = m2.repos := sorted_assoc_ext m1.repos m2.repos h1 h2 hlook
  have hm : m1 = m2 := by
    cases m1
    cases m2
    simp_all
  rw [hm]
  exact ⟨rfl, rfl⟩

/-- Witness for `allocation_deterministic`: a concrete one-shard directory
against itself, over two chunk sizes. -/
theorem allocation_deterministic_witness :
    allocRun
        (ReposMetadata.mk 2
          [("storage-0001", { name := "storage-0001", current_size := 5 })]) [3, 4] =
      allocRun
        (ReposMetadata.mk 2
          [("storage-0001", { name := "storage-0001", current_size := 5 })]) [3, 4] ∧
    allocStates
        (ReposMetadata.mk 2
          [("storage-0001", { name := "storage-0001", current_size := 5 })]) [3, 4] =
      allocStates
        (ReposMetadata.mk 2
          [("storage-0001", { name := "storage-0001", current_size := 5 })]) [3, 4] :=
  allocation_deterministic _ _ [3, 4] (by decide) (by decide) rfl (fun _ => rfl)

/-- C2 (amended): when every staged chunk file is present, the download
checks run in order — size first, then checksum; a size mismatch returns the
error but leaves the assembled output file at the destination path, while a
checksum mismatch deletes the output file before returning its error; when
both checks pass the call succeeds with the assembled bytes in place. -/
theorem download_integrity_checks (hash : Bytes → String) (fm : FileMetadata)
    (fetched : Nat → Option Bytes)
    (hall : ∀ i < (sortByIndex fm.chunks).length, (fetched i).isSome) :
    ((fetchedConcat fetched (sortByIndex fm.chunks).length).length ≠ fm.size →
      download hash fm fetched =
        (Except.error ("Downloaded size mismatch: " ++
          toString (fetchedConcat fetched (sortByIndex fm.chunks).length).length ++
          " vs " ++ toString fm.size),
         some (fetchedConcat fetched (sortByIndex fm.chunks).length)))
    ∧ ((fetchedConcat fetched (sortByIndex fm.chunks).length).length = fm.size →
       hash (fetchedConcat fetched (sortByIndex fm.chunks).length) ≠ fm.checksum →
       download hash fm fetched =
         (Except.error ("Checksum mismatch: " ++
            hash (fetchedConcat fetched (sortByIndex fm.chunks).length) ++
            " vs " ++ fm.checksum), none))
    ∧ ((fetchedConcat fetched (sortByIndex fm.chunks).length).length = fm.size →
       hash (fetchedConcat fetched (sortByIndex fm.chunks).length) = fm.checksum →
       download hash fm fetched =
         (Except.ok (), some (fetchedConcat fetched (sortByIndex fm.chunks).length))) := by
  have hasm := assembleLoop_range_all_some fetched (sortByIndex fm.chunks).length hall
  refine ⟨?_, ?_, ?_⟩
  · intro hne
    simp only [download, hasm]
    rw [if_pos hne]
  · intro heq hck
    simp only [download, hasm]
    rw [if_neg (not_not_intro heq), if_pos hck]
  · intro heq hck
    simp only [download, hasm]
    rw [if_neg (not_not_intro heq), if_neg (not_not_intro hck)]

/-- Witness for `download_integrity_checks`: a one-chunk manifest whose
recorded checksum does not match the assembled bytes' digest — the error is
returned and no output file remains. -/
theorem download_integrity_checks_witness :
    download (fun _ => "y") (FileMetadata.mk "x" 1 [ChunkInfo.mk "r" "p" 1 0])
        (fun _ => some [5]) =
      (Except.error ("Checksum mismatch: " ++ "y" ++ " vs " ++ "x"), none) :=
  (download_integrity_checks (fun _ => "y")
      (FileMetadata.mk "x" 1 [ChunkInfo.mk "r" "p" 1 0]) (fun _ => some [5])
      (by decide)).2.1 (by decide) (by decide)

/-- C2 counterexample: a truncated blob makes the size check fail, the
download returns the `SizeMismatch`-style error, yet the partially assembled
output file remains at the destination path (the source deletes the output
only in the checksum-mismatch branch). -/
theorem download_size_mismatch_keeps_output :
    download (fun _ => "deadbeef")
        (FileMetadata.mk "deadbeef" 2 [ChunkInfo.mk "storage-0001" "deadbeef_0000.chunk" 2 0])
        (fun _ => some [0]) =
      (Except.error "Downloaded size mismatch: 1 vs 2", some [0]) ∧
    (download (fun _ => "deadbeef")
        (FileMetadata.mk "deadbeef" 2 [ChunkInfo.mk "storage-0001" "deadbeef_0000.chunk" 2 0])
        (fun _ => some [0])).2 ≠ none :=
  ⟨rfl, by decide⟩

/-- C6: splitting a byte sequence by the upload chunking rule and
concatenating the chunks strictly in ascending chunk-index order reproduces
the original byte sequence exactly (hence an identical checksum); moreover a
download fed exactly the chunk files cut by a completed upload reassembles
the original bytes and succeeds.  Applies to every size, in particular `0`,
`1`, `C`, `C + 1` and `10*C + 7`. -/
theorem chunk_roundtrip (C : Nat) (hC : 0 < C) (bytes : Bytes) (hash : Bytes → String) :
    (chunkContents C bytes).flatten = bytes
    ∧ hash (chunkContents C bytes).flatten = hash bytes
    ∧ (∀ (env : UploadEnv) (m0 : ReposMetadata) (fm : FileMetadata) (m' : ReposMetadata),
        upload hash env m0 bytes = Except.ok (fm, m') →
        download hash fm (fun i => (chunkContents CHUNK_SIZE bytes).get? i) =
          (Except.ok (), some bytes)) := by
  have hCS : 0 < CHUNK_SIZE := by decide
  have hflat : ∀ C', 0 < C' → (chunkContents C' bytes).flatten = bytes := by
    intro C' hC'
    apply join_splitBySizes
    exact (chunk_planning_correct C' bytes.length hC').2.2.2.2.1
  refine ⟨hflat C hC, congrArg hash (hflat C hC), ?_⟩
  intro env m0 fm m' h
  obtain ⟨hplan, hck, hsz⟩ := upload_ok_plan hash env m0 bytes fm m' h
  have hlength : (chunkContents CHUNK_SIZE bytes).length =
      (planChunks CHUNK_SIZE bytes.length).length := by
    unfold chunkContents
    rw [length_splitBySizes, List.length_map]
  have hfmlen : fm.chunks.length = (planChunks CHUNK_SIZE bytes.length).length := by
    have h1 : (fm.chunks.map (fun c => (c.index, c.size))).length =
        (planChunks CHUNK_SIZE bytes.length).length := by rw [hplan]
    rw [List.length_map] at h1
    exact h1
  have hfst : (planChunks CHUNK_SIZE bytes.length).map Prod.fst =
      List.range ((bytes.length + CHUNK_SIZE - 1) / CHUNK_SIZE) :=
    (chunk_planning_correct CHUNK_SIZE bytes.length hCS).2.2.2.1
  have hlen : (planChunks CHUNK_SIZE bytes.length).length =
      (bytes.length + CHUNK_SIZE - 1) / CHUNK_SIZE :=
    (chunk_planning_correct CHUNK_SIZE bytes.length hCS).2.1
  have hidx : fm.chunks.map ChunkInfo.index = List.range fm.chunks.length := by
    have h2 : fm.chunks.map ChunkInfo.index =
        (planChunks CHUNK_SIZE bytes.length).map Prod.fst := by
      rw [← hplan, List.map_map]
      rfl
    rw [h2, hfst, hfmlen, hlen]
  have hpair : List.Pairwise (fun a b : ChunkInfo => a.index < b.index) fm.chunks := by
    have hrange := List.pairwise_lt_range fm.chunks.length
    rw [← hidx] at hrange
    exact List.pairwise_map.mp hrange
  have hsorted : sortByIndex fm.chunks = fm.chunks :=
    sortByIndex_of_ascending fm.chunks hpair
  have hget : ∀ k, k < (chunkContents CHUNK_SIZE bytes).length →
      (fun i => (chunkContents CHUNK_SIZE bytes).get? i) (0 + k) =
        (chunkContents CHUNK_SIZE bytes).get? k := by
    intro k _
    rw [Nat.zero_add]
  have hasm := assembleLoop_get (chunkContents CHUNK_SIZE bytes) 0
    (fun i => (chunkContents CHUNK_SIZE bytes).get? i) hget []
  have hrange : List.range (sortByIndex fm.chunks).length =
      List.range' 0 (chunkContents CHUNK_SIZE bytes).length := by
    rw [hsorted, hfmlen, ← hlength, List.range_eq_range']
  simp only [download, hrange, hasm, List.nil_append, hflat CHUNK_SIZE hCS]
  rw [if_neg (not_not_intro hsz.symm), if_neg (not_not_intro hck.symm)]

/-- Witness for `chunk_roundtrip`: chunk size `3` and a file of `10*3 + 7`
bytes reassemble exactly. -/
theorem chunk_roundtrip_witness :
    (chunkContents 3 (List.range 37)).flatten = List.range 37 :=
  (chunk_roundtrip 3 (by decide) (List.range 37) (fun _ => "h")).1

end Gidrive
